import Mathlib

set_option autoImplicit false
set_option maxHeartbeats 1000000

/-!
Verification of the wordlrs word-guessing game core (src/src/lib.rs).

The embedding below translates, from the Rust source:
  * the per-character verdict enumeration `GuessState`;
  * the inline two-pass guess evaluation of `process_game_events_system`
    (lib.rs lines 310-348), here called `evaluate`;
  * `Guess`, `HistoryResource` (`guess`, `share_string`);
  * `CurrentInputResource` (`push`, `backspace`) and the character handling
    of `capture_input_system`;
  * the event-processing tick `process_game_events_system`
    (validation, history recording, win/loss transition).

Strings are modelled as `List Char` (the source always iterates with
`str::chars()`).  The `Language`/asset machinery is collapsed to the one
operation the core uses, `is_in_dictionary`, which on the Rust side is
`Vec::contains` on the dictionary word list; `GameOptions.language` is
therefore represented by the dictionary contents themselves.
-/

/-- Per-character verdict; Rust `enum GuessState` (lib.rs 229-235).
`Missing` is what the spec calls `Absent`; `None` is the spec's `Unknown`. -/
inductive GuessState where
  | None
  | Missing
  | Misplaced
  | Correct
deriving DecidableEq, BEq, Repr

/-- Rust `struct Guess(Vec<(char, GuessState)>)` (lib.rs 213). -/
structure Guess where
  pairs : List (Char × GuessState)
deriving DecidableEq, Repr

/-- Rust `Guess::correct` (lib.rs 224-227):
`!self.0.iter().any(|(_, s)| s != &GuessState::Correct)`. -/
def Guess.correct (g : Guess) : Bool :=
  !(g.pairs.any (fun p => p.2 != GuessState.Correct))

/-- Rust `Iterator::position` over a character slice, as used at lib.rs 336. -/
def position (p : Char → Bool) : List Char → Option Nat
  | [] => Option.none
  | x :: xs => if p x then some 0 else (position p xs).map (fun n => n + 1)

/-- Exact-match pass of the evaluation (lib.rs 313-329): walk the zipped
guess/word characters with their index; on an exact match blank slot `i`
of the letter pool and emit `Correct`, otherwise emit `None`. -/
def exactPassAux : Nat → List Char → List (Char × Char) →
    List Char × List (Char × GuessState)
  | _, letters, [] => (letters, [])
  | i, letters, q :: rest =>
    if q.1 = q.2 then
      let r := exactPassAux (i + 1) (letters.set i ' ') rest
      (r.1, (q.1, GuessState.Correct) :: r.2)
    else
      let r := exactPassAux (i + 1) letters rest
      (r.1, (q.1, GuessState.None) :: r.2)

/-- The exact-match pass started on the full word as letter pool
(`let mut letters: Vec<char> = game_options.word.clone()...`, lib.rs 310). -/
def exactPass (word guess : List Char) : List Char × List (Char × GuessState) :=
  exactPassAux 0 word (guess.zip word)

/-- One step of the misplaced pass (lib.rs 331-346).  The `Option.none`
result models the `unwrap` panic at lib.rs 336: it is produced exactly when
`letters.contains` succeeded but `position` found nothing. -/
def misplacedStep (letters : List Char) (p : Char × GuessState) :
    Option (List Char × (Char × GuessState)) :=
  if p.2 = GuessState.None then
    if letters.contains p.1 then
      match position (fun x => x == p.1) letters with
      | some pos => some (letters.set pos ' ', (p.1, GuessState.Misplaced))
      | Option.none => Option.none
    else
      some (letters, (p.1, GuessState.Missing))
  else
    some (letters, p)

/-- The misplaced pass, threading the letter pool left to right. -/
def misplacedPassAux : List Char → List (Char × GuessState) →
    Option (List (Char × GuessState))
  | _, [] => some []
  | letters, p :: rest =>
    match misplacedStep letters p with
    | Option.none => Option.none
    | some lq =>
      match misplacedPassAux lq.1 rest with
      | Option.none => Option.none
      | some out => some (lq.2 :: out)

/-- The full two-pass evaluation of a guess against the secret word,
as inlined in `process_game_events_system` (lib.rs 310-348).
`Option.none` models an `unwrap` panic in the misplaced pass. -/
def evaluate (word guess : List Char) : Option (List (Char × GuessState)) :=
  let fp := exactPass word guess
  misplacedPassAux fp.1 fp.2

/-- The verdict sequence of an evaluation result. -/
def verdicts (out : List (Char × GuessState)) : List GuessState :=
  out.map Prod.snd

example : (evaluate "ABCA".toList "AABB".toList).map verdicts =
    some [GuessState.Correct, GuessState.Misplaced,
          GuessState.Misplaced, GuessState.Missing] := by decide

example : (evaluate "HELLO".toList "HELLO".toList).map verdicts =
    some [GuessState.Correct, GuessState.Correct, GuessState.Correct,
          GuessState.Correct, GuessState.Correct] := by decide

/-- First-match lookup in the character map, the read side of
`bevy::utils::HashMap<char, GuessState>` (`guessed_char.get`). -/
def lookupChar : List (Char × GuessState) → Char → Option GuessState
  | [], _ => Option.none
  | p :: rest, c => if p.1 == c then some p.2 else lookupChar rest c

/-- Key-replacing insertion, the write side of the hash map
(`guessed_char.insert` replaces the value at an existing key). -/
def insertChar : List (Char × GuessState) → Char → GuessState →
    List (Char × GuessState)
  | [], c, s => [(c, s)]
  | p :: rest, c, s =>
    if p.1 == c then (c, s) :: rest else p :: insertChar rest c s

/-- The per-pair ratchet of `HistoryResource::guess` (lib.rs 173-202):
`Correct` entries are never re-inserted, `Misplaced` only upgrades to
`Correct`, `Missing` upgrades to `Misplaced` or `Correct`, `None` and
absent keys take the observed verdict. -/
def updateGuessedChar (m : List (Char × GuessState)) (p : Char × GuessState) :
    List (Char × GuessState) :=
  match lookupChar m p.1 with
  | some GuessState.None => insertChar m p.1 p.2
  | some GuessState.Missing =>
    if p.2 = GuessState.Misplaced || p.2 = GuessState.Correct then
      insertChar m p.1 p.2
    else m
  | some GuessState.Misplaced =>
    if p.2 = GuessState.Correct then insertChar m p.1 p.2 else m
  | some GuessState.Correct => m
  | Option.none => insertChar m p.1 p.2

/-- Rust `struct HistoryResource` (lib.rs 132-136). -/
structure HistoryResource where
  guesses : List Guess
  guessed_char : List (Char × GuessState)
deriving DecidableEq, Repr

/-- Rust `HistoryResource::guess` (lib.rs 171-205): fold the guess's pairs
through the ratchet, then push the guess onto the history. -/
def HistoryResource.guess (h : HistoryResource) (g : Guess) : HistoryResource :=
  { guesses := h.guesses ++ [g],
    guessed_char := g.pairs.foldl updateGuessedChar h.guessed_char }

/-- Rust `struct Settings` (lib.rs 93-97). -/
structure Settings where
  word_length : Nat
  max_attempts : Nat
deriving DecidableEq, Repr

/-- `Settings::default` (lib.rs 99-106). -/
def Settings.default : Settings :=
  { max_attempts := 5, word_length := 5 }

/-- The block glyph emitted for one verdict in `share_string`
(lib.rs 151-155); `None` and `Missing` share one glyph. -/
def blockOf : GuessState → String
  | GuessState.None => "⬛"
  | GuessState.Missing => "⬛"
  | GuessState.Misplaced => "🟨"
  | GuessState.Correct => "🟩"

/-- Rust `HistoryResource::share_string` (lib.rs 139-160).  The word hash
(`DefaultHasher`, a fixed-key SipHash) is an external pure function and is
passed in as `hashWord`. -/
def HistoryResource.share_string (hashWord : List Char → Nat)
    (h : HistoryResource) (word : List Char) (settings : Settings) : String :=
  let hash := hashWord word
  let attempt := h.guesses.length
  let blocks := h.guesses.foldl
    (fun acc g =>
      acc ++ g.pairs.foldl (fun acc2 p => acc2 ++ blockOf p.2) "" ++ "\n") ""
  "wordlrs " ++ toString hash ++ " " ++ toString attempt ++ "/" ++
    toString settings.max_attempts ++ "\n" ++ blocks

/-- Rust `CurrentInputResource::push` (lib.rs 117-121). -/
def CurrentInputResource.push (buf : List Char) (character : Char)
    (max : Nat) : List Char :=
  if buf.length < max then buf ++ [character] else buf

/-- Rust `CurrentInputResource::backspace` (lib.rs 123-125): `Vec::pop`. -/
def CurrentInputResource.backspace (buf : List Char) : List Char :=
  buf.dropLast

/-- Rust `struct GameOptions` (lib.rs 59-64).  The `language` field is
represented by the only data the core reads from it: the dictionary word
list behind `Language::is_in_dictionary`. -/
structure GameOptions where
  settings : Settings
  word : List Char
  dictionary : List (List Char)
deriving DecidableEq, Repr

/-- `Language::is_in_dictionary` (assets.rs 217-220): `Vec::contains`. -/
def isInDictionary (opts : GameOptions) (w : List Char) : Bool :=
  opts.dictionary.contains w

/-- Rust `enum GameState` (lib.rs 43-49). -/
inductive GameState where
  | Load
  | Main (opts : GameOptions)
  | Menu (opts : GameOptions)
  | Win (opts : GameOptions)
  | Loss (opts : GameOptions)
deriving DecidableEq, Repr

/-- Rust `enum GameEvent` (lib.rs 287-289). -/
inductive GameEvent where
  | Guess (text : List Char)
deriving DecidableEq, Repr

/-- The loop state of one tick of `process_game_events_system`: the
history and input resources plus the `next_state` local (lib.rs 300). -/
structure EventAcc where
  history : HistoryResource
  input : List Char
  next : Option GameState
deriving DecidableEq, Repr

/-- Handling of one `GameEvent::Guess` inside the event loop of
`process_game_events_system` (lib.rs 302-371): length check, dictionary
check, evaluation, history recording, input reset, win/loss check.
A rejected guess leaves the accumulator untouched.  The `Option.none`
result of `evaluate` models an `unwrap` panic; `evaluate_isSome` below
proves that branch unreachable, so returning `acc` there is inert. -/
def processEvent (settings : Settings) (opts : GameOptions)
    (acc : EventAcc) : GameEvent → EventAcc
  | GameEvent.Guess g =>
    if g.length = opts.word.length then
      if isInDictionary opts g then
        match evaluate opts.word g with
        | some pairs =>
          let hist2 := acc.history.guess ⟨pairs⟩
          let next2 :=
            match hist2.guesses.getLast? with
            | some lastG =>
              if lastG.correct then some (GameState.Win opts)
              else if settings.max_attempts ≤ hist2.guesses.length then
                some (GameState.Loss opts)
              else acc.next
            | Option.none => acc.next
          { history := hist2, input := [], next := next2 }
        | Option.none => acc
      else acc
    else acc

/-- The shared resources touched by one tick of
`process_game_events_system`. -/
structure SysState where
  state : GameState
  history : HistoryResource
  input : List Char
deriving DecidableEq, Repr

/-- One tick of `process_game_events_system` (lib.rs 291-376): the current
state is inspected once; only in `Main` are the queued events folded in
order, and the final `next_state`, if set, is pushed after the loop. -/
def process_game_events_system (settings : Settings)
    (events : List GameEvent) (s : SysState) : SysState :=
  match s.state with
  | GameState.Main opts =>
    let acc := events.foldl (processEvent settings opts)
      ⟨s.history, s.input, Option.none⟩
    { state := acc.next.getD s.state, history := acc.history,
      input := acc.input }
  | _ => s

/-- One keyboard character handled by `capture_input_system`
(lib.rs 266-276).  `alpha` stands for Rust's Unicode
`char::is_alphabetic`; `\x08` is backspace, `\r`/`\n` submit the current
buffer as a guess event. -/
def captureStep (alpha : Char → Bool) (wordLen : Nat)
    (acc : List Char × List GameEvent) (c : Char) :
    List Char × List GameEvent :=
  if alpha c then (CurrentInputResource.push acc.1 c wordLen, acc.2)
  else if c = '\x08' then (CurrentInputResource.backspace acc.1, acc.2)
  else if c = '\r' || c = '\n' then (acc.1, acc.2 ++ [GameEvent.Guess acc.1])
  else acc

/-- `capture_input_system` in the `Main` state (lib.rs 259-285): fold the
received characters over the input buffer, collecting emitted events. -/
def capture_input_system (alpha : Char → Bool) (wordLen : Nat)
    (buf : List Char) (received : List Char) :
    List Char × List GameEvent :=
  received.foldl (captureStep alpha wordLen) (buf, [])

/-- Informativeness rank of an aggregate entry, following the spec's
ordering Unknown < Absent < Misplaced < Correct; an absent key and a
`None` entry both read as Unknown. -/
def rank : Option GuessState → Nat
  | Option.none => 0
  | some GuessState.None => 0
  | some GuessState.Missing => 1
  | some GuessState.Misplaced => 2
  | some GuessState.Correct => 3


/-- The guesses a list of events records during one tick in `Main`:
exactly the valid (length and dictionary) guesses, evaluated, in
submission order. -/
def recordedGuesses (opts : GameOptions) (evs : List GameEvent) :
    List Guess :=
  evs.filterMap (fun ev =>
    match ev with
    | GameEvent.Guess g =>
      if g.length = opts.word.length ∧ isInDictionary opts g = true then
        (evaluate opts.word g).map (fun pairs => Guess.mk pairs)
      else Option.none)


/- ------------------------------------------------------------------ -/
/- Helper lemmas on the evaluator.                                     -/
/- ------------------------------------------------------------------ -/

theorem contains_eq_position_isSome (l : List Char) (c : Char) :
    l.contains c = (position (fun x => x == c) l).isSome := by
  induction l with
  | nil => rfl
  | cons x xs ih =>
    by_cases h : x = c
    · subst h; simp [position]
    · have hb : (x == c) = false := by simp [h]
      have hb' : (c == x) = false := by simp [Ne.symm h]
      simp only [List.contains_cons, hb', Bool.false_or, position, hb, ih]
      cases position (fun y => y == c) xs <;> simp

theorem misplacedStep_isSome (letters : List Char) (p : Char × GuessState) :
    (misplacedStep letters p).isSome = true := by
  unfold misplacedStep
  by_cases h1 : p.2 = GuessState.None
  · rw [if_pos h1]
    by_cases h2 : letters.contains p.1 = true
    · have hpos := contains_eq_position_isSome letters p.1
      rw [h2] at hpos
      rw [if_pos h2]
      cases hp : position (fun x => x == p.1) letters with
      | none => rw [hp] at hpos; cases hpos
      | some pos => rfl
    · rw [if_neg h2]; rfl
  · rw [if_neg h1]; rfl

/-- Whenever `misplacedStep` succeeds, the output pair is `Correct`
exactly when the input pair already was. -/
theorem misplacedStep_correct_iff (letters : List Char)
    (p : Char × GuessState) (lq : List Char × (Char × GuessState))
    (h : misplacedStep letters p = some lq) :
    (lq.2.2 = GuessState.Correct) ↔ (p.2 = GuessState.Correct) := by
  unfold misplacedStep at h
  split at h
  next h1 =>
    split at h
    next =>
      split at h
      next => injection h with h; subst h; simp [h1]
      next => cases h
    next => injection h with h; subst h; simp [h1]
  next h1 => injection h with h; subst h; exact Iff.rfl

theorem misplacedPassAux_isSome (ps : List (Char × GuessState)) :
    ∀ letters, (misplacedPassAux letters ps).isSome = true := by
  induction ps with
  | nil => intro letters; rfl
  | cons p rest ih =>
    intro letters
    have hs := misplacedStep_isSome letters p
    cases hstep : misplacedStep letters p with
    | none => rw [hstep] at hs; cases hs
    | some lq =>
      have hr := ih lq.1
      cases hrest : misplacedPassAux lq.1 rest with
      | none => rw [hrest] at hr; cases hr
      | some out => simp [misplacedPassAux, hstep, hrest]

theorem misplacedPassAux_out (ps : List (Char × GuessState)) :
    ∀ letters out, misplacedPassAux letters ps = some out →
      out.length = ps.length ∧
      out.countP (fun q => decide (q.2 = GuessState.Correct)) =
        ps.countP (fun q => decide (q.2 = GuessState.Correct)) := by
  induction ps with
  | nil =>
    intro letters out h
    rw [misplacedPassAux] at h
    injection h with h
    subst h
    exact ⟨rfl, rfl⟩
  | cons p rest ih =>
    intro letters out h
    cases hstep : misplacedStep letters p with
    | none => rw [misplacedPassAux, hstep] at h; cases h
    | some lq =>
      cases hrest : misplacedPassAux lq.1 rest with
      | none => simp only [misplacedPassAux, hstep, hrest] at h; cases h
      | some out2 =>
        simp only [misplacedPassAux, hstep, hrest, Option.some.injEq] at h
        subst h
        have hih := ih lq.1 out2 hrest
        refine ⟨by simp [hih.1], ?_⟩
        have hiff := misplacedStep_correct_iff letters p lq hstep
        simp only [List.countP_cons, hih.2]
        congr 1
        simp [hiff]

theorem exactPassAux_out (ps : List (Char × Char)) :
    ∀ i letters,
      ((exactPassAux i letters ps).2).length = ps.length ∧
      ((exactPassAux i letters ps).2).countP
          (fun q => decide (q.2 = GuessState.Correct)) =
        ps.countP (fun q => decide (q.1 = q.2)) := by
  induction ps with
  | nil => intro i letters; exact ⟨rfl, rfl⟩
  | cons q rest ih =>
    intro i letters
    by_cases h : q.1 = q.2
    · have hih := ih (i + 1) (letters.set i ' ')
      simp only [exactPassAux, if_pos h]
      refine ⟨by simp [hih.1], ?_⟩
      simp [List.countP_cons, hih.2, h]
    · have hih := ih (i + 1) letters
      simp only [exactPassAux, if_neg h]
      refine ⟨by simp [hih.1], ?_⟩
      simp [List.countP_cons, hih.2, h]

/-- Claim C10: in the misplaced pass, the `position` lookup followed by
`unwrap` never panics: the evaluation as a whole always returns a result
(`Option.none` in the model is exactly the `unwrap` panic at lib.rs 336,
and it is unreachable because the lookup is guarded by `contains` on the
same letter pool). -/
theorem C10_no_panic (word guess : List Char) :
    (evaluate word guess).isSome = true := by
  unfold evaluate
  exact misplacedPassAux_isSome _ _

/-- Claim C4: for every guess whose character count equals the secret's,
evaluation returns exactly one verdict per position, and the number of
`Correct` verdicts equals the number of positions at which guess and
secret agree.  (Evaluation is a pure function of the two words: the
secret is never mutated.) -/
theorem C4_evaluate_shape (word guess : List Char)
    (h : guess.length = word.length) :
    ∃ out, evaluate word guess = some out ∧
      out.length = guess.length ∧
      out.countP (fun q => decide (q.2 = GuessState.Correct)) =
        (guess.zip word).countP (fun q => decide (q.1 = q.2)) := by
  have hsome := C10_no_panic word guess
  cases hout : evaluate word guess with
  | none => rw [hout] at hsome; cases hsome
  | some out =>
    refine ⟨out, rfl, ?_, ?_⟩
    all_goals {
      have hout' : misplacedPassAux (exactPass word guess).1
          (exactPass word guess).2 = some out := hout
      have hmis := misplacedPassAux_out _ _ _ hout'
      have hex := exactPassAux_out (guess.zip word) 0 word
      have hzip : (guess.zip word).length = guess.length := by
        rw [List.length_zip, h, Nat.min_self]
      first
      | (rw [hmis.1]; exact hex.1.trans hzip)
      | (rw [hmis.2]; exact hex.2)
    }

/-- Witness for C4 at secret "HELLO", guess "WORLD". -/
theorem C4_witness :
    ∃ out, evaluate "HELLO".toList "WORLD".toList = some out ∧
      out.length = "WORLD".toList.length ∧
      out.countP (fun q => decide (q.2 = GuessState.Correct)) =
        ("WORLD".toList.zip "HELLO".toList).countP
          (fun q => decide (q.1 = q.2)) :=
  C4_evaluate_shape "HELLO".toList "WORLD".toList (by decide)

/-- Claim C1 as stated is false: evaluating guess "AABB" against secret
"ABCA" does not produce the verdicts
[Correct, Misplaced, Absent, Misplaced] (`Missing` is the source's name
for Absent). -/
theorem C1_counterexample :
    ¬ ((evaluate "ABCA".toList "AABB".toList).map verdicts =
      some [GuessState.Correct, GuessState.Misplaced,
            GuessState.Missing, GuessState.Misplaced]) := by decide

/-- Claim C1, amended: evaluating guess "AABB" against secret "ABCA"
produces exactly the verdicts [Correct, Misplaced, Misplaced, Absent],
position by position in order. -/
theorem C1_amended :
    (evaluate "ABCA".toList "AABB".toList).map verdicts =
      some [GuessState.Correct, GuessState.Misplaced,
            GuessState.Misplaced, GuessState.Missing] := by decide

/- ------------------------------------------------------------------ -/
/- History aggregation: the ratchet of `HistoryResource::guess`.       -/
/- ------------------------------------------------------------------ -/

theorem lookupChar_insertChar (m : List (Char × GuessState)) (c : Char)
    (s : GuessState) (c' : Char) :
    lookupChar (insertChar m c s) c' =
      if c' = c then some s else lookupChar m c' := by
  induction m with
  | nil =>
    by_cases h : c' = c
    · simp [insertChar, lookupChar, h]
    · simp [insertChar, lookupChar, h,
        show (c == c') = false by simp [Ne.symm h]]
  | cons p rest ih =>
    obtain ⟨a, b⟩ := p
    by_cases hp : a = c
    · subst hp
      by_cases h : c' = a
      · simp [insertChar, lookupChar, h]
      · simp [insertChar, lookupChar, h,
          show (a == c') = false by simp [Ne.symm h]]
    · have hb : (a == c) = false := by simp [hp]
      by_cases h : c' = a
      · have hcc : (c' = c) = False := by simp [h, hp]
        simp [insertChar, lookupChar, hb, hcc,
          show (a == c') = true by simp [h]]
      · have h2 : (a == c') = false := by simp [Ne.symm h]
        simp [insertChar, lookupChar, hb, h2, ih]

theorem lookupChar_updateGuessedChar_ne (m : List (Char × GuessState))
    (p : Char × GuessState) (c : Char) (hc : c ≠ p.1) :
    lookupChar (updateGuessedChar m p) c = lookupChar m c := by
  unfold updateGuessedChar
  split <;> (try split) <;>
    first
    | rfl
    | (rw [lookupChar_insertChar]; simp [hc])

/-- One ratchet step never lowers the rank of any character's entry. -/
theorem rank_lookup_updateGuessedChar (m : List (Char × GuessState))
    (p : Char × GuessState) (c : Char) :
    rank (lookupChar m c) ≤ rank (lookupChar (updateGuessedChar m p) c) := by
  obtain ⟨a, s2⟩ := p
  by_cases hc : c = a
  · subst hc
    unfold updateGuessedChar
    dsimp only
    cases hm : lookupChar m c with
    | none => simp [hm, lookupChar_insertChar, rank]
    | some s =>
      cases s <;> cases s2 <;>
        (simp [hm, lookupChar_insertChar, rank]; try omega)
  · rw [lookupChar_updateGuessedChar_ne m (a, s2) c hc]

/-- One ratchet step never replaces a `Correct` entry. -/
theorem correct_updateGuessedChar (m : List (Char × GuessState))
    (p : Char × GuessState) (c : Char)
    (hm : lookupChar m c = some GuessState.Correct) :
    lookupChar (updateGuessedChar m p) c = some GuessState.Correct := by
  obtain ⟨a, s2⟩ := p
  by_cases hc : c = a
  · subst hc
    unfold updateGuessedChar
    dsimp only
    simp [hm]
  · rw [lookupChar_updateGuessedChar_ne m (a, s2) c hc]
    exact hm

theorem rank_lookup_foldl (ps : List (Char × GuessState)) :
    ∀ m c, rank (lookupChar m c) ≤
      rank (lookupChar (ps.foldl updateGuessedChar m) c) := by
  induction ps with
  | nil => intro m c; exact Nat.le_refl _
  | cons p rest ih =>
    intro m c
    exact Nat.le_trans (rank_lookup_updateGuessedChar m p c)
      (ih (updateGuessedChar m p) c)

theorem correct_foldl (ps : List (Char × GuessState)) :
    ∀ m c, lookupChar m c = some GuessState.Correct →
      lookupChar (ps.foldl updateGuessedChar m) c = some GuessState.Correct := by
  induction ps with
  | nil => intro m c hm; exact hm
  | cons p rest ih =>
    intro m c hm
    exact ih (updateGuessedChar m p) c (correct_updateGuessedChar m p c hm)

/-- Claim C5: as guesses are recorded, each character's aggregate verdict
is monotonically non-decreasing under Unknown < Absent < Misplaced <
Correct (recording never downgrades an entry), a `Correct` aggregate is
never replaced, and recording a character as Absent then Correct, in
either order, leaves its aggregate at `Correct`. -/
theorem C5_aggregate_ratchet :
    (∀ (h : HistoryResource) (g : Guess) (c : Char),
      rank (lookupChar h.guessed_char c) ≤
        rank (lookupChar (h.guess g).guessed_char c)) ∧
    (∀ (h : HistoryResource) (g : Guess) (c : Char),
      lookupChar h.guessed_char c = some GuessState.Correct →
        lookupChar (h.guess g).guessed_char c = some GuessState.Correct) ∧
    lookupChar (((HistoryResource.mk [] []).guess
        ⟨[('x', GuessState.Missing)]⟩).guess
        ⟨[('x', GuessState.Correct)]⟩).guessed_char 'x' =
      some GuessState.Correct ∧
    lookupChar (((HistoryResource.mk [] []).guess
        ⟨[('x', GuessState.Correct)]⟩).guess
        ⟨[('x', GuessState.Missing)]⟩).guessed_char 'x' =
      some GuessState.Correct := by
  refine ⟨?_, ?_, by decide, by decide⟩
  · intro h g c
    exact rank_lookup_foldl g.pairs h.guessed_char c
  · intro h g c hm
    exact correct_foldl g.pairs h.guessed_char c hm

/-- Witness for C5: the ratchet applied at a concrete history whose
aggregate already holds `Correct` for 'q'. -/
theorem C5_witness :
    lookupChar ((HistoryResource.mk [] [('q', GuessState.Correct)]).guess
        ⟨[('q', GuessState.Missing)]⟩).guessed_char 'q' =
      some GuessState.Correct :=
  C5_aggregate_ratchet.2.1 ⟨[], [('q', GuessState.Correct)]⟩
    ⟨[('q', GuessState.Missing)]⟩ 'q' (by decide)

/- ------------------------------------------------------------------ -/
/- Behaviour of one event inside the tick.                             -/
/- ------------------------------------------------------------------ -/

/-- A guess of the wrong length or outside the dictionary leaves the
accumulator (history, input buffer, pending state) untouched. -/
theorem processEvent_invalid (settings : Settings) (opts : GameOptions)
    (acc : EventAcc) (g : List Char)
    (h : ¬ g.length = opts.word.length ∨ isInDictionary opts g = false) :
    processEvent settings opts acc (GameEvent.Guess g) = acc := by
  simp only [processEvent]
  rcases h with h | h
  · exact if_neg h
  · by_cases hlen : g.length = opts.word.length
    · rw [if_pos hlen, if_neg (by simp [h])]
    · exact if_neg hlen

/-- A valid guess records its evaluation, clears the input, and sets the
pending state by the win/loss check on the just-recorded guess; a guess
that neither wins nor reaches the attempt limit leaves the previously
pending state in place. -/
theorem processEvent_valid (settings : Settings) (opts : GameOptions)
    (acc : EventAcc) (g : List Char) (pairs : List (Char × GuessState))
    (hlen : g.length = opts.word.length)
    (hdict : isInDictionary opts g = true)
    (hev : evaluate opts.word g = some pairs) :
    processEvent settings opts acc (GameEvent.Guess g) =
      { history := acc.history.guess ⟨pairs⟩,
        input := [],
        next :=
          if (Guess.mk pairs).correct then some (GameState.Win opts)
          else if settings.max_attempts ≤ acc.history.guesses.length + 1 then
            some (GameState.Loss opts)
          else acc.next } := by
  simp only [processEvent]
  rw [if_pos hlen, if_pos (show isInDictionary opts g = true from hdict), hev]
  simp only [HistoryResource.guess, List.getLast?_concat,
    List.length_append, List.length_cons, List.length_nil, Nat.zero_add]

theorem foldl_processEvent_guesses (settings : Settings)
    (opts : GameOptions) (evs : List GameEvent) :
    ∀ acc, ((evs.foldl (processEvent settings opts) acc).history).guesses =
      acc.history.guesses ++ recordedGuesses opts evs := by
  induction evs with
  | nil => intro acc; simp [recordedGuesses]
  | cons ev rest ih =>
    intro acc
    cases ev with
    | Guess g =>
      by_cases hval : g.length = opts.word.length ∧ isInDictionary opts g = true
      · cases hev : evaluate opts.word g with
        | none =>
          have := C10_no_panic opts.word g
          rw [hev] at this
          cases this
        | some pairs =>
          rw [List.foldl_cons,
            processEvent_valid settings opts acc g pairs hval.1 hval.2 hev,
            ih]
          simp [recordedGuesses, List.filterMap_cons, hval.1, hval.2, hev,
            HistoryResource.guess]
      · have hinv : ¬ g.length = opts.word.length ∨
            isInDictionary opts g = false := by
          by_cases hlen : g.length = opts.word.length
          · right
            cases hd : isInDictionary opts g with
            | false => rfl
            | true => exact absurd ⟨hlen, hd⟩ hval
          · left; exact hlen
        rw [List.foldl_cons, processEvent_invalid settings opts acc g hinv, ih]
        have hni : ¬ (g.length = opts.word.length ∧
            isInDictionary opts g = true) := hval
        simp [recordedGuesses, List.filterMap_cons, hni]

/-- Along the fold, a pending `Win` state can only have been put there by
a guess recorded during this tick whose every position is `Correct` (or
it was already pending). -/
theorem foldl_processEvent_win (settings : Settings) (opts : GameOptions)
    (evs : List GameEvent) :
    ∀ acc o, (evs.foldl (processEvent settings opts) acc).next =
        some (GameState.Win o) →
      acc.next = some (GameState.Win o) ∨
      (o = opts ∧ ∃ g ∈ recordedGuesses opts evs, g.correct = true) := by
  induction evs with
  | nil => intro acc o h; exact Or.inl h
  | cons ev rest ih =>
    intro acc o h
    rw [List.foldl_cons] at h
    rcases ih (processEvent settings opts acc ev) o h with hstep | hrec
    · cases ev with
      | Guess g =>
        by_cases hval : g.length = opts.word.length ∧
            isInDictionary opts g = true
        · cases hev : evaluate opts.word g with
          | none =>
            have := C10_no_panic opts.word g
            rw [hev] at this
            cases this
          | some pairs =>
            rw [processEvent_valid settings opts acc g pairs
              hval.1 hval.2 hev] at hstep
            by_cases hcor : (Guess.mk pairs).correct = true
            · rw [if_pos hcor] at hstep
              refine Or.inr ⟨?_, Guess.mk pairs, ?_, hcor⟩
              · injection hstep with hstep
                injection hstep with hstep
                exact hstep.symm
              · simp [recordedGuesses, List.filterMap_cons, hval.1, hval.2,
                  hev]
            · rw [if_neg hcor] at hstep
              by_cases hloss : settings.max_attempts ≤
                  acc.history.guesses.length + 1
              · rw [if_pos hloss] at hstep
                simp at hstep
              · rw [if_neg hloss] at hstep
                exact Or.inl hstep
        · have hinv : ¬ g.length = opts.word.length ∨
              isInDictionary opts g = false := by
            by_cases hlen : g.length = opts.word.length
            · right
              cases hd : isInDictionary opts g with
              | false => rfl
              | true => exact absurd ⟨hlen, hd⟩ hval
            · left; exact hlen
          rw [processEvent_invalid settings opts acc g hinv] at hstep
          exact Or.inl hstep
    · refine Or.inr ⟨hrec.1, ?_⟩
      obtain ⟨g, hg, hgc⟩ := hrec.2
      refine ⟨g, ?_, hgc⟩
      cases ev with
      | Guess gt =>
        simp only [recordedGuesses, List.filterMap_cons]
        split
        · exact hg
        · exact List.mem_cons_of_mem _ hg

/-- Claim C2 as stated is false on one point: with secret "AB",
dictionary containing "AB" and "BA", and the two events
[Guess "AB", Guess "BA"] queued in one tick, the winning first guess sets
the pending state to `Win`, the later non-winning guess "BA" is recorded
but does not clear it, and the tick ends in `Win` even though the most
recently recorded guess is not a winning one. -/
theorem C2_counterexample :
    (process_game_events_system ⟨5, 5⟩
        [GameEvent.Guess "AB".toList, GameEvent.Guess "BA".toList]
        ⟨GameState.Main ⟨⟨2, 5⟩, "AB".toList, ["AB".toList, "BA".toList]⟩,
          ⟨[], []⟩, []⟩).state =
      GameState.Win ⟨⟨2, 5⟩, "AB".toList, ["AB".toList, "BA".toList]⟩ ∧
    ((process_game_events_system ⟨5, 5⟩
        [GameEvent.Guess "AB".toList, GameEvent.Guess "BA".toList]
        ⟨GameState.Main ⟨⟨2, 5⟩, "AB".toList, ["AB".toList, "BA".toList]⟩,
          ⟨[], []⟩, []⟩).history.guesses.getLast?).map Guess.correct =
      some false := by decide

/-- Claim C2, amended: events queued in the same tick are processed in
submission order, each valid guess fully updating the history before the
next is evaluated — the tick's history is the prior history extended by
the evaluated valid guesses in submission order. -/
theorem C2_amended (settings : Settings) (s : SysState) (opts : GameOptions)
    (evs : List GameEvent) (hs : s.state = GameState.Main opts) :
    (process_game_events_system settings evs s).history.guesses =
      s.history.guesses ++ recordedGuesses opts evs := by
  unfold process_game_events_system
  simp only [hs]
  exact foldl_processEvent_guesses settings opts evs
    ⟨s.history, s.input, Option.none⟩

/-- Witness for C2 at a concrete one-event tick. -/
theorem C2_witness :
    (process_game_events_system ⟨5, 5⟩ [GameEvent.Guess "AB".toList]
        ⟨GameState.Main ⟨⟨2, 5⟩, "AB".toList, ["AB".toList]⟩,
          ⟨[], []⟩, []⟩).history.guesses =
      (HistoryResource.mk [] []).guesses ++
        recordedGuesses ⟨⟨2, 5⟩, "AB".toList, ["AB".toList]⟩
          [GameEvent.Guess "AB".toList] :=
  C2_amended ⟨5, 5⟩ _ _ _ (by decide)

/-- Claim C3: the loss check at lib.rs 363 reads
`current_settings.max_attempts`, the global `Settings` resource, which is
initialised to its default (5) and never written anywhere in the
code, while the round's own `GameOptions.settings.max_attempts` (set from
the menu, and displayed by `share_string`) is ignored.  With a round
whose own limit is 2 under the default global resource, two valid
non-winning guesses leave the machine in `Main` with 2 recorded guesses
where the claim requires `Loss`; rerunning with the global resource set
to 2 does produce `Loss`, locating the divergence. -/
theorem C3_code_divergence :
    (process_game_events_system Settings.default
        [GameEvent.Guess "CD".toList, GameEvent.Guess "DC".toList]
        ⟨GameState.Main
          ⟨⟨2, 2⟩, "AB".toList, ["CD".toList, "DC".toList, "AB".toList]⟩,
          ⟨[], []⟩, []⟩).state =
      GameState.Main
        ⟨⟨2, 2⟩, "AB".toList, ["CD".toList, "DC".toList, "AB".toList]⟩ ∧
    (process_game_events_system Settings.default
        [GameEvent.Guess "CD".toList, GameEvent.Guess "DC".toList]
        ⟨GameState.Main
          ⟨⟨2, 2⟩, "AB".toList, ["CD".toList, "DC".toList, "AB".toList]⟩,
          ⟨[], []⟩, []⟩).history.guesses.length = 2 ∧
    (GameOptions.mk ⟨2, 2⟩ "AB".toList
        ["CD".toList, "DC".toList, "AB".toList]).settings.max_attempts = 2 ∧
    (process_game_events_system ⟨5, 2⟩
        [GameEvent.Guess "CD".toList, GameEvent.Guess "DC".toList]
        ⟨GameState.Main
          ⟨⟨2, 2⟩, "AB".toList, ["CD".toList, "DC".toList, "AB".toList]⟩,
          ⟨[], []⟩, []⟩).state =
      GameState.Loss
        ⟨⟨2, 2⟩, "AB".toList, ["CD".toList, "DC".toList, "AB".toList]⟩ := by
  decide

/-- Claim C6: a tick ends in `Win` only if it was already in `Win`, or it
was in `Main` and some guess recorded during the tick has every position
`Correct` (`Guess.correct`); no other transition produces `Win`. -/
theorem C6_win_needs_all_correct (settings : Settings) (s : SysState)
    (evs : List GameEvent) (o : GameOptions)
    (hwin : (process_game_events_system settings evs s).state =
      GameState.Win o) :
    s.state = GameState.Win o ∨
    (∃ opts, s.state = GameState.Main opts ∧ o = opts ∧
      ∃ g ∈ recordedGuesses opts evs, g.correct = true) := by
  unfold process_game_events_system at hwin
  cases hst : s.state with
  | Load => simp only [hst] at hwin; cases hwin
  | Menu opts2 => simp only [hst] at hwin; cases hwin
  | Loss opts2 => simp only [hst] at hwin; cases hwin
  | Win opts2 =>
    simp only [hst] at hwin
    injection hwin with h2
    exact Or.inl (by rw [h2])
  | Main opts =>
    simp only [hst] at hwin
    cases hn : (evs.foldl (processEvent settings opts)
        ⟨s.history, s.input, Option.none⟩).next with
    | none => rw [hn] at hwin; cases hwin
    | some st =>
      rw [hn] at hwin
      simp only [Option.getD_some] at hwin
      have hfold : (evs.foldl (processEvent settings opts)
          ⟨s.history, s.input, Option.none⟩).next =
          some (GameState.Win o) := by rw [hn, hwin]
      rcases foldl_processEvent_win settings opts evs
          ⟨s.history, s.input, Option.none⟩ o hfold with hnone | hrec
      · cases hnone
      · exact Or.inr ⟨opts, rfl, hrec.1, hrec.2⟩

/-- Witness for C6 at a concrete winning tick. -/
theorem C6_witness :
    (SysState.mk (GameState.Main ⟨⟨2, 5⟩, "AB".toList, ["AB".toList]⟩)
        ⟨[], []⟩ []).state =
      GameState.Win ⟨⟨2, 5⟩, "AB".toList, ["AB".toList]⟩ ∨
    (∃ opts, (SysState.mk
          (GameState.Main ⟨⟨2, 5⟩, "AB".toList, ["AB".toList]⟩)
          ⟨[], []⟩ []).state = GameState.Main opts ∧
      (GameOptions.mk ⟨2, 5⟩ "AB".toList ["AB".toList]) = opts ∧
      ∃ g ∈ recordedGuesses opts [GameEvent.Guess "AB".toList],
        g.correct = true) :=
  C6_win_needs_all_correct ⟨5, 5⟩ _ [GameEvent.Guess "AB".toList] _
    (by decide)

/-- Claim C7: a guess whose character count differs from the round's word
length, or which is not in the active dictionary, is silently dropped:
the history, the input buffer, and the state are left exactly as they
were, with no error surfaced. -/
theorem C7_invalid_guess_dropped :
    (∀ (settings : Settings) (opts : GameOptions) (acc : EventAcc)
        (g : List Char), ¬ g.length = opts.word.length →
      processEvent settings opts acc (GameEvent.Guess g) = acc) ∧
    (∀ (settings : Settings) (opts : GameOptions) (acc : EventAcc)
        (g : List Char), isInDictionary opts g = false →
      processEvent settings opts acc (GameEvent.Guess g) = acc) ∧
    (∀ (settings : Settings) (s : SysState) (opts : GameOptions)
        (g : List Char), s.state = GameState.Main opts →
      (¬ g.length = opts.word.length ∨ isInDictionary opts g = false) →
      process_game_events_system settings [GameEvent.Guess g] s = s) := by
  refine ⟨?_, ?_, ?_⟩
  · intro settings opts acc g h
    exact processEvent_invalid settings opts acc g (Or.inl h)
  · intro settings opts acc g h
    exact processEvent_invalid settings opts acc g (Or.inr h)
  · intro settings s opts g hs h
    unfold process_game_events_system
    simp only [hs]
    rw [List.foldl_cons, List.foldl_nil,
      processEvent_invalid settings opts ⟨s.history, s.input, Option.none⟩ g h]
    have heta : SysState.mk (GameState.Main opts) s.history s.input = s := by
      rw [← hs]
    exact heta

/-- Witness for C7: a wrong-length guess on a concrete state. -/
theorem C7_witness :
    process_game_events_system ⟨5, 5⟩ [GameEvent.Guess "ABC".toList]
        ⟨GameState.Main ⟨⟨2, 5⟩, "AB".toList, ["AB".toList]⟩,
          ⟨[], []⟩, []⟩ =
      ⟨GameState.Main ⟨⟨2, 5⟩, "AB".toList, ["AB".toList]⟩, ⟨[], []⟩, []⟩ :=
  C7_invalid_guess_dropped.2.2 ⟨5, 5⟩
    ⟨GameState.Main ⟨⟨2, 5⟩, "AB".toList, ["AB".toList]⟩, ⟨[], []⟩, []⟩
    ⟨⟨2, 5⟩, "AB".toList, ["AB".toList]⟩ "ABC".toList (by decide)
    (by decide)

/-- Claim C8: the share-code generator is deterministic — its output is a
pure function of its arguments and depends on the history only through
the recorded guesses, so two calls with no intervening change to the
history produce byte-identical output (no randomness is involved). -/
theorem C8_share_deterministic (hashWord : List Char → Nat)
    (word : List Char) (settings : Settings) (h1 h2 : HistoryResource)
    (hg : h1.guesses = h2.guesses) :
    h1.share_string hashWord word settings =
      h2.share_string hashWord word settings := by
  unfold HistoryResource.share_string
  rw [hg]

/-- Witness for C8: two histories with the same guesses but different
aggregate maps produce the same share string. -/
theorem C8_witness :
    (HistoryResource.mk [Guess.mk [('A', GuessState.Correct)]]
        []).share_string (fun w => w.length) "AB".toList ⟨5, 5⟩ =
      (HistoryResource.mk [Guess.mk [('A', GuessState.Correct)]]
        [('A', GuessState.Correct)]).share_string
        (fun w => w.length) "AB".toList ⟨5, 5⟩ :=
  C8_share_deterministic (fun w => w.length) "AB".toList ⟨5, 5⟩
    (HistoryResource.mk [Guess.mk [('A', GuessState.Correct)]] [])
    (HistoryResource.mk [Guess.mk [('A', GuessState.Correct)]]
      [('A', GuessState.Correct)]) (by decide)

theorem captureStep_length (alpha : Char → Bool) (wordLen : Nat)
    (acc : List Char × List GameEvent) (c : Char)
    (h : acc.1.length ≤ wordLen) :
    ((captureStep alpha wordLen acc c).1).length ≤ wordLen := by
  unfold captureStep CurrentInputResource.push CurrentInputResource.backspace
  split
  · split
    next hlt => simp only [List.length_append, List.length_cons,
      List.length_nil]; omega
    next => exact h
  · split
    · have hd : (acc.1.dropLast).length ≤ acc.1.length := by
        rw [List.length_dropLast]; omega
      exact Nat.le_trans hd h
    · split
      · exact h
      · exact h

theorem capture_foldl_length (alpha : Char → Bool) (wordLen : Nat)
    (received : List Char) :
    ∀ acc : List Char × List GameEvent, acc.1.length ≤ wordLen →
      ((received.foldl (captureStep alpha wordLen) acc).1).length ≤
        wordLen := by
  induction received with
  | nil => intro acc h; exact h
  | cons c rest ih =>
    intro acc h
    rw [List.foldl_cons]
    exact ih _ (captureStep_length alpha wordLen acc c h)

/-- Claim C9: `push` appends its character exactly when the buffer holds
fewer than `max` characters and otherwise leaves the buffer unchanged;
since `capture_input_system` always passes the round's word length as the
limit, a buffer within the word length never exceeds it under any
sequence of received characters. -/
theorem C9_input_bounded :
    (∀ (buf : List Char) (c : Char) (max : Nat), buf.length < max →
      CurrentInputResource.push buf c max = buf ++ [c]) ∧
    (∀ (buf : List Char) (c : Char) (max : Nat), ¬ buf.length < max →
      CurrentInputResource.push buf c max = buf) ∧
    (∀ (alpha : Char → Bool) (wordLen : Nat) (buf received : List Char),
      buf.length ≤ wordLen →
      ((capture_input_system alpha wordLen buf received).1).length ≤
        wordLen) := by
  refine ⟨?_, ?_, ?_⟩
  · intro buf c max h
    exact if_pos h
  · intro buf c max h
    exact if_neg h
  · intro alpha wordLen buf received h
    exact capture_foldl_length alpha wordLen received (buf, []) h

/-- Witness for C9 on concrete buffers with word length 2. -/
theorem C9_witness :
    (CurrentInputResource.push ['a'] 'b' 2 = ['a'] ++ ['b']) ∧
    (CurrentInputResource.push ['a', 'b'] 'c' 2 = ['a', 'b']) ∧
    ((capture_input_system (fun c => c.isAlpha) 2 ['a']
        ['b', 'c', '\x08']).1).length ≤ 2 :=
  ⟨C9_input_bounded.1 ['a'] 'b' 2 (by decide),
   C9_input_bounded.2.1 ['a', 'b'] 'c' 2 (by decide),
   C9_input_bounded.2.2 (fun c => c.isAlpha) 2 ['a'] ['b', 'c', '\x08']
     (by decide)⟩
